import Mathlib

/-!
# Fluid-Sim: the physics kernel of `src/main.cpp`

A shallow embedding of the particle store, the uniform grid (`FastGrid`), the
damped Verlet integrator, the pairwise overlap solver, the boundary
containment pass and the end-of-frame culling step.

Modelling conventions.

* `float` values are elements of an arbitrary linearly ordered field `K` with a
  floor function (`ℚ` for evaluation, `ℝ` for the mathematical reading), so
  arithmetic is exact: rounding, infinities and NaN are not modelled.
* `std::sqrt` is a parameter `sqrtF : K → K`; theorems that depend on it state
  what they need of it at the argument in question.
* `int` values are unbounded integers.  The conversion `(int)f` truncates
  toward zero (`truncInt`); the source leaves it undefined when the truncated
  value does not fit an `int`, and no wrap-around is modelled.
* `std::vector<int>` is `List Int`; a write outside the vector (undefined in
  the source) is a no-op and a read outside it yields `-1`.  Every theorem
  about the grid carries the length hypotheses under which all accesses are
  in range.
-/

namespace FluidSim

/-! ## Data model -/

/-- Two floats, `sf::Vector2f`. -/
structure Vec2 (K : Type) where
  x : K
  y : K
deriving DecidableEq

/-- Particle state, `struct Particle`. -/
structure Particle (K : Type) where
  pos : Vec2 K
  oldPos : Vec2 K
  acc : Vec2 K
  radius : K
deriving DecidableEq

/-- Grid state, `struct FastGrid`. -/
structure FastGrid (K : Type) where
  cellSize : K
  cols : Int
  rows : Int
  head : List Int
  next : List Int

/-- The vessel, `boxLeft`, `boxRight`, `boxTop`, `boxBottom` of `main`. -/
structure Box (K : Type) where
  boxLeft : K
  boxRight : K
  boxTop : K
  boxBottom : K

section Kernel

variable {K : Type} [LinearOrderedField K] [FloorRing K]

/-! ## Vector arithmetic (`sf::Vector2f` operators) -/

/-- Componentwise `a + b`. -/
def Vec2.add (a b : Vec2 K) : Vec2 K := ⟨a.x + b.x, a.y + b.y⟩

/-- Componentwise `a - b`. -/
def Vec2.sub (a b : Vec2 K) : Vec2 K := ⟨a.x - b.x, a.y - b.y⟩

/-- Vector times scalar, `v * s`. -/
def Vec2.scale (v : Vec2 K) (s : K) : Vec2 K := ⟨v.x * s, v.y * s⟩

/-- Vector divided by scalar, `v / s`. -/
def Vec2.divS (v : Vec2 K) (s : K) : Vec2 K := ⟨v.x / s, v.y / s⟩

/-- Squared length, `v.x * v.x + v.y * v.y`. -/
def Vec2.lenSq (v : Vec2 K) : K := v.x * v.x + v.y * v.y

/-! ## Constants of `main` -/

/-- The constant `damping = 0.999f`. -/
def damping : K := 999 / 1000

/-- The constant `pressureConstant = 500.0f`. -/
def pressureConstant : K := 500

/-- The `(int)` conversion of a float: truncation toward zero. -/
def truncInt (q : K) : Int := if 0 ≤ q then ⌊q⌋ else ⌈q⌉

/-! ## FastGrid -/

/-- `FastGrid::init(w, h, c)`. -/
def FastGrid.init (g : FastGrid K) (w h : Int) (c : K) : FastGrid K :=
  let cols := truncInt ((w : K) / c + 2)
  let rows := truncInt ((h : K) / c + 2)
  { g with cellSize := c, cols := cols, rows := rows,
           head := List.replicate (cols * rows).toNat (-1) }

/-- `FastGrid::clear()`: every bucket head becomes `-1`. -/
def FastGrid.clear (g : FastGrid K) : FastGrid K :=
  { g with head := g.head.map (fun _ => -1) }

/-- The column computed by `FastGrid::insert` for abscissa `x`. -/
def FastGrid.cellX (g : FastGrid K) (x : K) : Int :=
  max 0 (min (g.cols - 1) (truncInt (x / g.cellSize)))

/-- The row computed by `FastGrid::insert` for ordinate `y`. -/
def FastGrid.cellY (g : FastGrid K) (y : K) : Int :=
  max 0 (min (g.rows - 1) (truncInt (y / g.cellSize)))

/-- The `cellIdx` computed by `FastGrid::insert`. -/
def FastGrid.cellIdx (g : FastGrid K) (p : Vec2 K) : Int :=
  g.cellY p.y * g.cols + g.cellX p.x

/-- `FastGrid::insert(i, p)`: `next[i] = head[cellIdx]; head[cellIdx] = i`. -/
def FastGrid.insert (g : FastGrid K) (i : Nat) (p : Vec2 K) : FastGrid K :=
  let cellIdx := g.cellIdx p
  { g with next := g.next.set i (g.head.getD cellIdx.toNat (-1)),
           head := g.head.set cellIdx.toNat (i : Int) }

/-- The state of the grid after `k` iterations of
`for (i = 0; i < n; ++i) grid.insert(i, particles[i].pos)`. -/
def insertLoop (g : FastGrid K) (ps : List (Particle K)) : Nat → FastGrid K
  | 0 => g
  | k + 1 =>
    match ps[k]? with
    | some p => (insertLoop g ps k).insert k p.pos
    | none => insertLoop g ps k

/-- The grid rebuild of a sub-step: `grid.clear()` and the insertion loop. -/
def rebuild (g : FastGrid K) (ps : List (Particle K)) : FastGrid K :=
  insertLoop g.clear ps ps.length

/-- The bucket walk `j = head[c]; while (j != -1) { visit j; j = next[j]; }`
started at `j`, returning the visited indices in order; `none` when the walk
has not reached `-1` within `fuel` iterations. -/
def walk (next : List Int) : Nat → Int → Option (List Int)
  | 0, j => if j = -1 then some [] else none
  | fuel + 1, j =>
    if j = -1 then some []
    else (walk next fuel (next.getD j.toNat (-1))).map (fun l => j :: l)

/-- The indices visited in cell `(nx, ny)` of the neighbourhood scan: nothing
when the cell is outside the grid (`continue`), else the bucket walk. -/
def scanCell (g : FastGrid K) (fuel : Nat) (nx ny : Int) : Option (List Int) :=
  if nx < 0 ∨ nx ≥ g.cols ∨ ny < 0 ∨ ny ≥ g.rows then some []
  else walk g.next fuel (g.head.getD (ny * g.cols + nx).toNat (-1))

/-- The three rows `ny = gy - 1 .. gy + 1` of column `nx`. -/
def scanColumn (g : FastGrid K) (fuel : Nat) (nx gy : Int) : Option (List Int) := do
  let a ← scanCell g fuel nx (gy - 1)
  let b ← scanCell g fuel nx gy
  let c ← scanCell g fuel nx (gy + 1)
  pure (a ++ b ++ c)

/-- The indices `j` met by the 3x3 neighbourhood scan rooted at position `p`
(lines 141-147), in the order of the loops, before the `i != j` test. -/
def scan (g : FastGrid K) (fuel : Nat) (p : Vec2 K) : Option (List Int) := do
  let gx := truncInt (p.x / g.cellSize)
  let gy := truncInt (p.y / g.cellSize)
  let a ← scanColumn g fuel (gx - 1) gy
  let b ← scanColumn g fuel gx gy
  let c ← scanColumn g fuel (gx + 1) gy
  pure (a ++ b ++ c)

/-- The indices `j` for which the body of `if (i != j)` runs during the scan
rooted at particle `i`, whose position is `p`. -/
def visited (g : FastGrid K) (fuel : Nat) (i : Nat) (p : Vec2 K) : Option (List Int) :=
  (scan g fuel p).map (fun l => l.filter (fun j => decide ((i : Int) ≠ j)))

/-! ## Integrator -/

/-- One iteration of the integrator loop (lines 131-135) with sub-step
`sub_dt`. -/
def integrate (sub_dt : K) (p : Particle K) : Particle K :=
  let vel := (p.pos.sub p.oldPos).scale damping
  { p with oldPos := p.pos,
           pos := (p.pos.add vel).add (p.acc.scale (sub_dt * sub_dt)) }

/-! ## Overlap solver -/

/-- The test of line 152 on the pair `(pi, pj)`:
`distSq < minDist * minDist && distSq > 0.0001f`. -/
def overlapping (pi pj : Particle K) : Prop :=
  (pi.pos.sub pj.pos).lenSq < (pi.radius + pj.radius) * (pi.radius + pj.radius) ∧
    (pi.pos.sub pj.pos).lenSq > 1 / 10000

instance (pi pj : Particle K) : Decidable (overlapping pi pj) :=
  inferInstanceAs (Decidable (_ ∧ _))

/-- The value `pressureForce` of line 156. -/
def pressureForce (overlap minDist : K) : K := (overlap / minDist) * pressureConstant

/-- The correction body, lines 153-162, on the particles `pi = particles[i]`
and `pj = particles[j]`; returns their new values. -/
def correctionBody (sqrtF : K → K) (sub_dt : K) (pi pj : Particle K) :
    Particle K × Particle K :=
  let axis := pi.pos.sub pj.pos
  let distSq := axis.lenSq
  let minDist := pi.radius + pj.radius
  let dist := sqrtF distSq
  let n := axis.divS dist
  let overlap := minDist - dist
  let impulse := (n.scale (pressureForce overlap minDist)).scale sub_dt
  let posI := pi.pos.add impulse
  let posJ := pj.pos.sub impulse
  let ratio := 1 / 2 * overlap / dist
  let posI := posI.add ((axis.scale ratio).scale (8 / 10))
  let posJ := posJ.sub ((axis.scale ratio).scale (8 / 10))
  ({ pi with pos := posI }, { pj with pos := posJ })

/-- Lines 149-163: the correction body under its overlap test. -/
def pairStep (sqrtF : K → K) (sub_dt : K) (pi pj : Particle K) :
    Particle K × Particle K :=
  if overlapping pi pj then correctionBody sqrtF sub_dt pi pj else (pi, pj)

/-- The box of `main` for a window of size `w` by `h` (lines 48-50). -/
def mkBox (w h : K) : Box K :=
  let boxLeft := w * (1 / 10)
  let boxWidth := w * (8 / 10)
  let boxTop := h * (4 / 10)
  let boxHeight := h * (5 / 10)
  ⟨boxLeft, boxLeft + boxWidth, boxTop, boxTop + boxHeight⟩

/-- One iteration of the containment loop (lines 171-179). -/
def contain (b : Box K) (p : Particle K) : Particle K :=
  if p.pos.x > b.boxLeft - p.radius ∧ p.pos.x < b.boxRight + p.radius then
    if p.pos.y > b.boxTop - p.radius ∧ p.pos.y < b.boxBottom + p.radius then
      let y1 := if p.pos.y > b.boxBottom - p.radius then b.boxBottom - p.radius else p.pos.y
      let x1 := if p.pos.x < b.boxLeft + p.radius then b.boxLeft + p.radius else p.pos.x
      let x2 := if x1 > b.boxRight - p.radius then b.boxRight - p.radius else x1
      { p with pos := ⟨x2, y1⟩ }
    else p
  else p

/-- The boundary-containment pass over all particles. -/
def containAll (b : Box K) (ps : List (Particle K)) : List (Particle K) :=
  ps.map (contain b)

/-! ## End-of-frame culling -/

/-- The predicate of `std::remove_if` (line 183) for a window `w` by `h`. -/
def escaped (w h : Nat) (p : Particle K) : Bool :=
  decide (p.pos.y > (h : K) + 100 ∨ p.pos.x < -100 ∨ p.pos.x > (w : K) + 100)

/-- The erase/remove_if idiom of lines 182-184: the particles for which the
predicate is false, in order. -/
def cull (w h : Nat) (ps : List (Particle K)) : List (Particle K) :=
  ps.filter (fun p => !escaped w h p)

/-- `std::vector<int>::resize(n, -1)`. -/
def resizeFill (l : List Int) (n : Nat) : List Int :=
  l.take n ++ List.replicate (n - l.length) (-1)

/-- The culling step: lines 182-185 on the particle store and the grid. -/
def cullStep (w h : Nat) (ps : List (Particle K)) (g : FastGrid K) :
    List (Particle K) × FastGrid K :=
  let ps1 := cull w h ps
  (ps1, { g with next := resizeFill g.next ps1.length })

/-! ## Specification-level and auxiliary definitions -/

/-- The cell mapping in the spec's words, to be compared with `FastGrid.cellIdx`:
`floor(position / cellSize)` clamped into `[0, cols-1] x [0, rows-1]`, row-major. -/
def specCell (g : FastGrid K) (p : Vec2 K) : Int :=
  max 0 (min (g.rows - 1) ⌊p.y / g.cellSize⌋) * g.cols
    + max 0 (min (g.cols - 1) ⌊p.x / g.cellSize⌋)

/-- The indices below `k` whose particle is put in cell `c` by `insert`, most
recent first. -/
def bucket (g : FastGrid K) (ps : List (Particle K)) (k c : Nat) : List Nat :=
  ((List.range k).filter
    (fun i => decide (∃ p, ps[i]? = some p ∧ (g.cellIdx p.pos).toNat = c))).reverse

/-- The indices stored in cell `(nx, ny)` of the rebuilt grid, as the scan
meets them; nothing for a cell outside the grid. -/
def cellList (g : FastGrid K) (ps : List (Particle K)) (nx ny : Int) : List Int :=
  if nx < 0 ∨ nx ≥ g.cols ∨ ny < 0 ∨ ny ≥ g.rows then []
  else (bucket g ps ps.length (ny * g.cols + nx).toNat).map Int.ofNat

/-- The nine cell lists of the block around `(gx, gy)`, in scan order. -/
def blockList (g : FastGrid K) (ps : List (Particle K)) (gx gy : Int) : List Int :=
  (cellList g ps (gx - 1) (gy - 1) ++ cellList g ps (gx - 1) gy ++ cellList g ps (gx - 1) (gy + 1))
  ++ (cellList g ps gx (gy - 1) ++ cellList g ps gx gy ++ cellList g ps gx (gy + 1))
  ++ (cellList g ps (gx + 1) (gy - 1) ++ cellList g ps (gx + 1) gy ++ cellList g ps (gx + 1) (gy + 1))

end Kernel

/-- `Chain next j l`: following `next` from `j` meets exactly the indices of
`l`, in order, and then `-1`. -/
def Chain (next : List Int) : Int → List Nat → Prop
  | j, [] => j = -1
  | j, a :: l => j = (a : Int) ∧ Chain next (next.getD a (-1)) l

/-! ## Concrete data used to instantiate the theorems -/

/-- A particle at rest at `(x, y)` with radius `r`. -/
def restingAt (x y r : ℚ) : Particle ℚ := ⟨⟨x, y⟩, ⟨x, y⟩, ⟨0, 0⟩, r⟩

/-- An uninitialised grid with room for two particles in `next`. -/
def blankGrid : FastGrid ℚ := ⟨0, 0, 0, [], [-1, -1]⟩

/-- The grid of `main` at start-up: `grid.init(500, 500, pRad * 3.0f)` with
`pRad = 2.5f`. -/
def mainGrid : FastGrid ℚ := blankGrid.init 500 500 (15 / 2)

/-- The start-up grid as a sub-step leaves it: rebuilt for two particles that
have since moved, so that two heads still hold their indices. -/
def usedGrid : FastGrid ℚ :=
  rebuild mainGrid [restingAt 300 300 (5 / 2), restingAt 310 300 (5 / 2)]

/-- A grid of two by two cells of size `5` with room for two particles. -/
def smallGrid : FastGrid ℚ := ⟨5, 2, 2, [-1, -1, -1, -1], [-1, -1]⟩

/-- The sub-step of a frame of 16 ms or more: `0.016f / 8`. -/
def mainSubDt : ℚ := 1 / 500

/-! ## Theorems: integrator, containment, culling, pair correction -/

section Physics

variable {K : Type} [LinearOrderedField K]

theorem ite_lt_eq_max (a x : K) : (if x < a then a else x) = max x a := by
  split_ifs with h
  · exact (max_eq_right h.le).symm
  · exact (max_eq_left (not_lt.mp h)).symm

theorem ite_gt_eq_min (c z : K) : (if z > c then c else z) = min z c := by
  split_ifs with h
  · exact (min_eq_right (le_of_lt h)).symm
  · exact (min_eq_left (not_lt.mp h)).symm

/-- The containment of one particle as a single test and two clamps. -/
theorem contain_eq (b : Box K) (p : Particle K) :
    contain b p =
      if p.pos.x > b.boxLeft - p.radius ∧ p.pos.x < b.boxRight + p.radius ∧
          p.pos.y > b.boxTop - p.radius ∧ p.pos.y < b.boxBottom + p.radius then
        { p with pos := ⟨min (max p.pos.x (b.boxLeft + p.radius)) (b.boxRight - p.radius),
                         min p.pos.y (b.boxBottom - p.radius)⟩ }
      else p := by
  unfold contain
  simp only [ite_lt_eq_max, ite_gt_eq_min]
  split_ifs with h1 h2 h3 h4 h5 <;> first | rfl | (exfalso; tauto)

theorem contain_idem (b : Box K) (p : Particle K) : contain b (contain b p) = contain b p := by
  rw [contain_eq b p]
  split_ifs with h
  · rw [contain_eq]
    split_ifs with h2
    · simp only [min_self, min_assoc]
      congr 2
      rcases le_total (b.boxLeft + p.radius) (b.boxRight - p.radius) with hle | hle
      · rw [max_eq_left (le_min (le_max_right _ _) hle), min_assoc, min_self]
      · rw [min_eq_right (le_trans hle (le_max_right _ _))]
        exact (min_eq_right (le_trans hle (le_max_right _ _))).symm
    · rfl
  · rw [contain_eq, if_neg h]

/-- C5, containment idempotence: for every box and every list of particles
(any positions, any radius), running the boundary-containment pass a second
time changes nothing. -/
theorem containment_idempotent (b : Box K) (ps : List (Particle K)) :
    containAll b (containAll b ps) = containAll b ps := by
  unfold containAll
  rw [List.map_map]
  apply List.map_congr_left
  intro p _
  exact contain_idem b p

/-- C6 as amended: for a particle of radius 2.5 centred horizontally in the
box, the containment pass puts `pos.y` at `boxBottom - 2.5` when the particle
reaches below that line by less than its diameter
(`boxBottom - 2.5 < y < boxBottom + 2.5`), and leaves the particle where it is
when `y >= boxBottom + 2.5`, in particular at `y = boxBottom + 10`. -/
theorem boundary_clamp_within_radius (b : Box K) (p : Particle K)
    (hLR : b.boxLeft < b.boxRight) (hTB : b.boxTop < b.boxBottom) (hr : p.radius = 5 / 2)
    (hx : p.pos.x = (b.boxLeft + b.boxRight) / 2) :
    (b.boxBottom - 5 / 2 < p.pos.y → p.pos.y < b.boxBottom + 5 / 2 →
        (contain b p).pos.y = b.boxBottom - 5 / 2) ∧
    (b.boxBottom + 5 / 2 ≤ p.pos.y → contain b p = p) ∧
    (p.pos.y = b.boxBottom + 10 → contain b p = p) := by
  have gx : p.pos.x > b.boxLeft - p.radius ∧ p.pos.x < b.boxRight + p.radius := by
    rw [hx, hr]; constructor <;> linarith
  have far : b.boxBottom + 5 / 2 ≤ p.pos.y → contain b p = p := by
    intro h1
    have gy : ¬ (p.pos.y > b.boxTop - p.radius ∧ p.pos.y < b.boxBottom + p.radius) := by
      rw [hr]; intro hh; linarith [hh.2]
    unfold contain
    rw [if_pos gx, if_neg gy]
  refine ⟨?_, far, fun h10 => far (by rw [h10]; linarith)⟩
  intro h1 h2
  have gy : p.pos.y > b.boxTop - p.radius ∧ p.pos.y < b.boxBottom + p.radius := by
    rw [hr]; constructor <;> linarith
  unfold contain
  rw [if_pos gx, if_pos gy]
  simp only [hr]
  exact if_pos h1

/-- C8, end-of-frame culling: the store after the culling step is the original
list filtered by `-100 <= x <= w + 100 and y <= h + 100` (same particles, same
order, fields untouched), a sublist of the original, and `grid.next` has the
length of the new store. -/
theorem culling_keeps_exactly_inside (w h : Nat) (ps : List (Particle K)) (g : FastGrid K) :
    (cullStep w h ps g).1 =
      ps.filter (fun p =>
        decide (-100 ≤ p.pos.x ∧ p.pos.x ≤ (w : K) + 100 ∧ p.pos.y ≤ (h : K) + 100)) ∧
    List.Sublist (cullStep w h ps g).1 ps ∧
    (∀ p, p ∈ (cullStep w h ps g).1 ↔
      p ∈ ps ∧ -100 ≤ p.pos.x ∧ p.pos.x ≤ (w : K) + 100 ∧ p.pos.y ≤ (h : K) + 100) ∧
    (cullStep w h ps g).2.next.length = (cullStep w h ps g).1.length := by
  have e : (cullStep w h ps g).1 =
      ps.filter (fun p =>
        decide (-100 ≤ p.pos.x ∧ p.pos.x ≤ (w : K) + 100 ∧ p.pos.y ≤ (h : K) + 100)) := by
    simp only [cullStep, cull, escaped]
    apply List.filter_congr
    intro p _
    simp only [Bool.not_eq_eq_eq_not, Bool.not_not, decide_eq_decide, not_or, not_lt,
      decide_not, gt_iff_lt]
    by_cases h1 : (h : K) + 100 < p.pos.y <;> by_cases h2 : p.pos.x < -100 <;>
      by_cases h3 : (w : K) + 100 < p.pos.x <;> simp [h1, h2, h3, not_le.mpr, not_lt.mp]
  refine ⟨e, ?_, ?_, ?_⟩
  · rw [e]; exact List.filter_sublist _
  · intro p
    rw [e, List.mem_filter, decide_eq_true_eq]
  · simp only [cullStep, resizeFill, List.length_append, List.length_take, List.length_replicate]
    omega

/-- C9, energy bound under damping: with zero acceleration one integrator
update gives `newPos - newOldPos = damping * (pos - oldPos)` for the program's
`damping = 0.999`, so the squared speed does not grow, and neither does the
speed `sqrtF |pos - oldPos|^2` for any monotone square-root function. -/
theorem damped_speed_nonincreasing (sub_dt : K) (p : Particle K) (hacc : p.acc = ⟨0, 0⟩) :
    (integrate sub_dt p).pos.sub (integrate sub_dt p).oldPos
        = (p.pos.sub p.oldPos).scale damping ∧
    ((integrate sub_dt p).pos.sub (integrate sub_dt p).oldPos).lenSq
        ≤ (p.pos.sub p.oldPos).lenSq ∧
    ∀ sqrtF : K → K, Monotone sqrtF →
      sqrtF ((integrate sub_dt p).pos.sub (integrate sub_dt p).oldPos).lenSq
        ≤ sqrtF (p.pos.sub p.oldPos).lenSq := by
  have e : (integrate sub_dt p).pos.sub (integrate sub_dt p).oldPos
        = (p.pos.sub p.oldPos).scale damping := by
    simp only [integrate, Vec2.sub, Vec2.add, Vec2.scale, hacc, Vec2.mk.injEq]
    constructor <;> ring
  have le : ((integrate sub_dt p).pos.sub (integrate sub_dt p).oldPos).lenSq
        ≤ (p.pos.sub p.oldPos).lenSq := by
    rw [e]
    simp only [Vec2.lenSq, Vec2.scale, Vec2.sub, damping]
    nlinarith [mul_self_nonneg (p.pos.x - p.oldPos.x), mul_self_nonneg (p.pos.y - p.oldPos.y)]
  exact ⟨e, le, fun s hs => hs le⟩

/-- The correction body in closed form. -/
theorem correctionBody_pos (sqrtF : K → K) (h : K) (pi pj : Particle K) (dist : K)
    (hsqrt : sqrtF (pi.pos.sub pj.pos).lenSq = dist) (hd : dist ≠ 0)
    (hm : pi.radius + pj.radius ≠ 0) :
    (correctionBody sqrtF h pi pj).1.pos = pi.pos.add (((pi.pos.sub pj.pos).divS dist).scale
        ((pi.radius + pj.radius - dist) *
          (pressureConstant * h / (pi.radius + pj.radius) + 4 / 10))) ∧
    (correctionBody sqrtF h pi pj).2.pos = pj.pos.sub (((pi.pos.sub pj.pos).divS dist).scale
        ((pi.radius + pj.radius - dist) *
          (pressureConstant * h / (pi.radius + pj.radius) + 4 / 10))) := by
  unfold correctionBody
  simp only []
  rw [hsqrt]
  obtain ⟨⟨xi, yi⟩, oi, ai, ri⟩ := pi
  obtain ⟨⟨xj, yj⟩, oj, aj, rj⟩ := pj
  simp only [Vec2.add, Vec2.sub, Vec2.scale, Vec2.divS, pressureForce, Vec2.mk.injEq] at hm ⊢
  refine ⟨⟨?_, ?_⟩, ⟨?_, ?_⟩⟩ <;> field_simp <;> ring

theorem lenSq_sub_add_scale (a b n : Vec2 K) (k d : K) (hn : n.lenSq = 1)
    (hab : a.sub b = n.scale d) :
    ((a.add (n.scale k)).sub (b.sub (n.scale k))).lenSq = (d + 2 * k) * (d + 2 * k) := by
  obtain ⟨ax, ay⟩ := a
  obtain ⟨bx, byy⟩ := b
  obtain ⟨nx, ny⟩ := n
  simp only [Vec2.add, Vec2.sub, Vec2.scale, Vec2.lenSq, Vec2.mk.injEq] at *
  obtain ⟨h1, h2⟩ := hab
  have e1 : ax + nx * k - (bx - nx * k) = nx * (d + 2 * k) := by linear_combination h1
  have e2 : ay + ny * k - (byy - ny * k) = ny * (d + 2 * k) := by linear_combination h2
  rw [e1, e2]
  linear_combination (d + 2 * k) * (d + 2 * k) * hn

theorem lenSq_sub_comm (a b : Vec2 K) : (a.sub b).lenSq = (b.sub a).lenSq := by
  simp only [Vec2.sub, Vec2.lenSq]
  ring

/-- One guarded correction of an overlapping pair, in closed form: the two
displacements, the unit normal, the conserved sum and the new squared distance. -/
theorem pairStep_closed (sqrtF : K → K) (h : K) (pi pj : Particle K) (dist : K)
    (hsqrt : sqrtF (pi.pos.sub pj.pos).lenSq = dist) (hnn : 0 ≤ dist)
    (hsq : dist * dist = (pi.pos.sub pj.pos).lenSq)
    (hov : overlapping pi pj) :
    0 < dist ∧
    (pairStep sqrtF h pi pj).1.pos = pi.pos.add (((pi.pos.sub pj.pos).divS dist).scale
        ((pi.radius + pj.radius - dist) *
          (pressureConstant * h / (pi.radius + pj.radius) + 4 / 10))) ∧
    (pairStep sqrtF h pi pj).2.pos = pj.pos.sub (((pi.pos.sub pj.pos).divS dist).scale
        ((pi.radius + pj.radius - dist) *
          (pressureConstant * h / (pi.radius + pj.radius) + 4 / 10))) ∧
    ((pi.pos.sub pj.pos).divS dist).lenSq = 1 ∧
    pi.pos.sub pj.pos = ((pi.pos.sub pj.pos).divS dist).scale dist ∧
    (pairStep sqrtF h pi pj).1.pos.add (pairStep sqrtF h pi pj).2.pos = pi.pos.add pj.pos ∧
    ((pairStep sqrtF h pi pj).1.pos.sub (pairStep sqrtF h pi pj).2.pos).lenSq =
        (dist + (pi.radius + pj.radius - dist) *
          (8 / 10 + 2 * pressureConstant * h / (pi.radius + pj.radius))) *
        (dist + (pi.radius + pj.radius - dist) *
          (8 / 10 + 2 * pressureConstant * h / (pi.radius + pj.radius))) ∧
    (0 < pi.radius + pj.radius → 0 ≤ h →
      dist < pi.radius + pj.radius ∧
      dist < dist + (pi.radius + pj.radius - dist) *
          (8 / 10 + 2 * pressureConstant * h / (pi.radius + pj.radius))) := by
  obtain ⟨hlt, hgt⟩ := hov
  have hd0 : 0 < dist := by
    rcases hnn.lt_or_eq with h0 | h0
    · exact h0
    · rw [← h0] at hsq; rw [← hsq] at hgt; norm_num at hgt
  have hdne : dist ≠ 0 := hd0.ne'
  have hmne : pi.radius + pj.radius ≠ 0 := by
    intro h0
    rw [h0, ← hsq] at hlt
    nlinarith
  have hstep : pairStep sqrtF h pi pj = correctionBody sqrtF h pi pj := by
    unfold pairStep; exact if_pos ⟨hlt, hgt⟩
  obtain ⟨e1, e2⟩ := correctionBody_pos sqrtF h pi pj dist hsqrt hdne hmne
  have hn : ((pi.pos.sub pj.pos).divS dist).lenSq = 1 := by
    simp only [Vec2.lenSq, Vec2.divS] at hsq ⊢
    field_simp
    linarith
  have hab : pi.pos.sub pj.pos = ((pi.pos.sub pj.pos).divS dist).scale dist := by
    simp only [Vec2.scale, Vec2.divS]
    rw [div_mul_cancel₀ _ hdne, div_mul_cancel₀ _ hdne]
  rw [hstep, e1, e2]
  refine ⟨hd0, rfl, rfl, hn, hab, ?_, ?_, ?_⟩
  · simp only [Vec2.add, Vec2.sub, Vec2.scale, Vec2.divS, Vec2.mk.injEq]
    constructor <;> ring
  · rw [lenSq_sub_add_scale _ _ _ _ dist hn hab]
    have : dist + 2 * ((pi.radius + pj.radius - dist) *
          (pressureConstant * h / (pi.radius + pj.radius) + 4 / 10))
      = dist + (pi.radius + pj.radius - dist) *
          (8 / 10 + 2 * pressureConstant * h / (pi.radius + pj.radius)) := by
      ring
    rw [this]
  · intro hmin hh
    have hdm : dist < pi.radius + pj.radius := by
      rw [← hsq] at hlt
      by_contra hc
      push_neg at hc
      nlinarith
    have h1 : 0 < (pi.radius + pj.radius - dist) := by linarith
    have h2 : 0 ≤ 2 * (pressureConstant : K) * h / (pi.radius + pj.radius) := by
      unfold pressureConstant; positivity
    exact ⟨hdm, by nlinarith⟩

/-- C3, effect of one pair correction.  For particles `pi`, `pj` that pass the
overlap test, with `dist` the non-negative square root of the squared centre
distance returned by `sqrtF`: the correction moves `pi` by `n * (overlap *
(pressureConstant * h / minDist + 0.4))` and `pj` by the opposite vector,
`n = axis / dist` being a unit vector and `overlap = minDist - dist`;
`pos[i] + pos[j]` is unchanged; the new squared centre distance is the square
of `dist + overlap * (0.8 + 2 * pressureConstant * h / minDist)`, and this value
exceeds `dist` when `h >= 0` and the contact distance `minDist` is positive
(radii are).  In the scenario (radii 2.5, `dist = 3`): `overlap = 2`,
`pressureForce = 200`, each particle moves `200 h + 0.8` and the new distance
is `4.6 + 400 h`, above `dist` for `h >= 0`. -/
theorem pair_correction_effect (sqrtF : K → K) (h : K) (pi pj : Particle K) (dist : K)
    (hsqrt : sqrtF (pi.pos.sub pj.pos).lenSq = dist) (hnn : 0 ≤ dist)
    (hsq : dist * dist = (pi.pos.sub pj.pos).lenSq)
    (hov : overlapping pi pj) :
    (pairStep sqrtF h pi pj).1.pos = pi.pos.add (((pi.pos.sub pj.pos).divS dist).scale
        ((pi.radius + pj.radius - dist) *
          (pressureConstant * h / (pi.radius + pj.radius) + 4 / 10))) ∧
    (pairStep sqrtF h pi pj).2.pos = pj.pos.sub (((pi.pos.sub pj.pos).divS dist).scale
        ((pi.radius + pj.radius - dist) *
          (pressureConstant * h / (pi.radius + pj.radius) + 4 / 10))) ∧
    ((pi.pos.sub pj.pos).divS dist).lenSq = 1 ∧
    (pairStep sqrtF h pi pj).1.pos.add (pairStep sqrtF h pi pj).2.pos = pi.pos.add pj.pos ∧
    ((pairStep sqrtF h pi pj).1.pos.sub (pairStep sqrtF h pi pj).2.pos).lenSq =
        (dist + (pi.radius + pj.radius - dist) *
          (8 / 10 + 2 * pressureConstant * h / (pi.radius + pj.radius))) *
        (dist + (pi.radius + pj.radius - dist) *
          (8 / 10 + 2 * pressureConstant * h / (pi.radius + pj.radius))) ∧
    (0 < pi.radius + pj.radius → 0 ≤ h →
      0 < dist ∧ dist < dist + (pi.radius + pj.radius - dist) *
          (8 / 10 + 2 * pressureConstant * h / (pi.radius + pj.radius))) ∧
    (pi.radius = 5 / 2 → pj.radius = 5 / 2 → dist = 3 →
        pi.radius + pj.radius - dist = 2 ∧
        pressureForce (pi.radius + pj.radius - dist) (pi.radius + pj.radius) = 200 ∧
        (pi.radius + pj.radius - dist) *
          (pressureConstant * h / (pi.radius + pj.radius) + 4 / 10) = 200 * h + 8 / 10 ∧
        dist + (pi.radius + pj.radius - dist) *
          (8 / 10 + 2 * pressureConstant * h / (pi.radius + pj.radius)) = 46 / 10 + 400 * h ∧
        (0 ≤ h → dist < 46 / 10 + 400 * h)) := by
  obtain ⟨hd0, e1, e2, hn, -, hsum, hlen, hgt⟩ :=
    pairStep_closed sqrtF h pi pj dist hsqrt hnn hsq hov
  refine ⟨e1, e2, hn, hsum, hlen, fun hmin hh => ⟨hd0, (hgt hmin hh).2⟩, ?_⟩
  intro r1 r2 d3
  rw [r1, r2, d3]
  unfold pressureForce pressureConstant
  norm_num
  refine ⟨by ring, by ring, fun hh => by linarith⟩

end Physics

/-! ## Theorems: the grid -/

/-- Writing `next[k]` keeps every chain that does not pass through `k`. -/
theorem chain_set {next : List Int} {k : Nat} (v : Int) :
    ∀ {l : List Nat} {j : Int}, Chain next j l → k ∉ l → Chain (next.set k v) j l
  | [], _, h, _ => h
  | a :: l, j, h, hk => by
    have hak : k ≠ a := fun e => hk (e ▸ List.mem_cons_self _ _)
    have hkl : k ∉ l := fun e => hk (List.mem_cons_of_mem _ e)
    refine ⟨h.1, ?_⟩
    have : (next.set k v).getD a (-1) = next.getD a (-1) := by
      simp only [List.getD_eq_getElem?_getD, List.getElem?_set_ne hak]
    rw [this]
    exact chain_set v h.2 hkl

/-- A chain is what the bucket walk returns, given fuel for its length. -/
theorem chain_walk {next : List Int} :
    ∀ {l : List Nat} {j : Int} (fuel : Nat), Chain next j l → l.length ≤ fuel →
      walk next fuel j = some (l.map Int.ofNat)
  | [], j, fuel, h, _ => by
    have hj : j = -1 := h
    cases fuel <;> simp [walk, hj]
  | a :: l, j, 0, _, hf => by simp at hf
  | a :: l, j, fuel + 1, h, hf => by
    have hj : j = (a : Int) := h.1
    have hne : ¬ ((a : Int) = -1) := by omega
    have ih := chain_walk fuel h.2 (by simpa using hf)
    rw [walk, hj, if_neg hne, Int.toNat_ofNat, ih]
    rfl

section Basics

variable {K : Type} [LinearOrderedField K]

theorem abs_x_le_of_lenSq_le (a b : Vec2 K) (c : K) (hc : 0 ≤ c)
    (h : (a.sub b).lenSq ≤ c * c) : |a.x - b.x| ≤ c ∧ |a.y - b.y| ≤ c := by
  simp only [Vec2.lenSq, Vec2.sub] at h
  constructor
  · apply abs_le_of_sq_le_sq' _ hc |> abs_le.mpr
    nlinarith [mul_self_nonneg (a.y - b.y)]
  · apply abs_le_of_sq_le_sq' _ hc |> abs_le.mpr
    nlinarith [mul_self_nonneg (a.x - b.x)]

end Basics

section Grid

variable {K : Type} [LinearOrderedField K] [FloorRing K]

theorem insertLoop_params (g : FastGrid K) (ps : List (Particle K)) (k : Nat) :
    (insertLoop g ps k).cellSize = g.cellSize ∧ (insertLoop g ps k).cols = g.cols ∧
    (insertLoop g ps k).rows = g.rows ∧ (insertLoop g ps k).head.length = g.head.length ∧
    (insertLoop g ps k).next.length = g.next.length := by
  induction k with
  | zero => simp [insertLoop]
  | succ k ih =>
    rw [insertLoop]
    cases hp : ps[k]? with
    | none => simpa using ih
    | some p => simpa [FastGrid.insert] using ih

theorem cellIdx_congr (g g' : FastGrid K) (h1 : g'.cellSize = g.cellSize) (h2 : g'.cols = g.cols)
    (h3 : g'.rows = g.rows) (p : Vec2 K) : g'.cellIdx p = g.cellIdx p := by
  simp only [FastGrid.cellIdx, FastGrid.cellX, FastGrid.cellY, h1, h2, h3]

theorem bucket_lt (g : FastGrid K) (ps : List (Particle K)) (k c i : Nat)
    (h : i ∈ bucket g ps k c) : i < k := by
  simp only [bucket, List.mem_reverse, List.mem_filter, List.mem_range] at h
  exact h.1

theorem bucket_succ (g : FastGrid K) (ps : List (Particle K)) (k c : Nat) :
    bucket g ps (k + 1) c =
      if (∃ p, ps[k]? = some p ∧ (g.cellIdx p.pos).toNat = c) then k :: bucket g ps k c
      else bucket g ps k c := by
  simp only [bucket, List.range_succ, List.filter_append, List.reverse_append, List.filter_cons,
    List.filter_nil]
  by_cases h : ∃ p, ps[k]? = some p ∧ (g.cellIdx p.pos).toNat = c
  · rw [if_pos h]; simp [h]
  · rw [if_neg h]; simp [h]

/-- Invariant of the insertion loop: after `k` insertions on the cleared grid,
the chain from `head[c]` is the bucket of cell `c` among the first `k` particles. -/
theorem insertLoop_chain (g : FastGrid K) (ps : List (Particle K))
    (hn : ps.length ≤ g.next.length) (k : Nat) (hk : k ≤ ps.length) (c : Nat)
    (hc : c < g.head.length) :
    Chain (insertLoop g.clear ps k).next ((insertLoop g.clear ps k).head.getD c (-1))
      (bucket g ps k c) := by
  induction k with
  | zero =>
    simp only [insertLoop, FastGrid.clear, bucket, List.range_zero, List.filter_nil,
      List.reverse_nil, Chain]
    simp only [List.getD_eq_getElem?_getD, List.getElem?_map]
    cases g.head[c]? <;> rfl
  | succ k ih =>
    have ih := ih (Nat.le_of_succ_le hk)
    have hklt : k < ps.length := hk
    obtain ⟨p, hp⟩ : ∃ p, ps[k]? = some p := ⟨ps[k], List.getElem?_eq_getElem hklt⟩
    obtain ⟨e1, e2, e3, e4, e5⟩ := insertLoop_params g.clear ps k
    have ecell : (insertLoop g.clear ps k).cellIdx p.pos = g.cellIdx p.pos :=
      cellIdx_congr g _ e1 e2 e3 p.pos
    have hknot : k ∉ bucket g ps k c := fun hmem => lt_irrefl _ (bucket_lt g ps k c k hmem)
    rw [insertLoop, hp, bucket_succ]
    simp only [FastGrid.insert, ecell, hp, Option.some.injEq, exists_eq_left']
    by_cases hcc : (g.cellIdx p.pos).toNat = c
    · rw [if_pos hcc, hcc]
      have hcl : c < (insertLoop g.clear ps k).head.length := by
        rw [e4]; simpa [FastGrid.clear] using hc
      have hkn : k < (insertLoop g.clear ps k).next.length := by
        rw [e5]; simp only [FastGrid.clear]; omega
      refine ⟨?_, ?_⟩
      · simp [List.getD_eq_getElem?_getD, List.getElem?_set_eq_of_lt, hcl]
      · have : ((insertLoop g.clear ps k).next.set k
            ((insertLoop g.clear ps k).head.getD c (-1))).getD k (-1)
            = (insertLoop g.clear ps k).head.getD c (-1) := by
          simp [List.getD_eq_getElem?_getD, List.getElem?_set_eq_of_lt, hkn]
        rw [this]
        exact chain_set _ ih hknot
    · rw [if_neg hcc]
      have : ((insertLoop g.clear ps k).head.set (g.cellIdx p.pos).toNat (k : Int)).getD c (-1)
          = (insertLoop g.clear ps k).head.getD c (-1) := by
        simp only [List.getD_eq_getElem?_getD, List.getElem?_set_ne hcc]
      rw [this]
      exact chain_set _ ih hknot

theorem truncInt_of_nonneg {q : K} (h : 0 ≤ q) : truncInt q = ⌊q⌋ := by
  simp [truncInt, h]

theorem truncInt_of_neg {q : K} (h : q < 0) : truncInt q = ⌈q⌉ := by
  simp [truncInt, not_le.mpr h]

/-- Clamping from below at `0` hides the difference between truncation toward
zero and the floor. -/
theorem clamp_trunc_eq_floor (m : Int) (q : K) :
    max 0 (min m (truncInt q)) = max 0 (min m ⌊q⌋) := by
  rcases le_or_lt 0 q with h | h
  · rw [truncInt_of_nonneg h]
  · rw [truncInt_of_neg h]
    have h1 : ⌈q⌉ ≤ 0 := Int.ceil_le.mpr (by exact_mod_cast h.le)
    have h2 : ⌊q⌋ < 0 := Int.floor_lt.mpr (by exact_mod_cast h)
    rw [max_eq_left (le_trans (min_le_right _ _) h1),
      max_eq_left (le_trans (min_le_right _ _) h2.le)]

theorem cellIdx_eq_specCell (g : FastGrid K) (p : Vec2 K) :
    g.cellIdx p = specCell g p := by
  simp only [FastGrid.cellIdx, FastGrid.cellX, FastGrid.cellY, specCell]
  rw [clamp_trunc_eq_floor, clamp_trunc_eq_floor]

theorem cellX_range (g : FastGrid K) (hc : 1 ≤ g.cols) (x : K) :
    0 ≤ g.cellX x ∧ g.cellX x < g.cols := by
  simp only [FastGrid.cellX]
  refine ⟨le_max_left _ _, ?_⟩
  rw [max_lt_iff]
  exact ⟨by omega, lt_of_le_of_lt (min_le_left _ _) (by omega)⟩

theorem cellY_range (g : FastGrid K) (hr : 1 ≤ g.rows) (y : K) :
    0 ≤ g.cellY y ∧ g.cellY y < g.rows := by
  simp only [FastGrid.cellY]
  refine ⟨le_max_left _ _, ?_⟩
  rw [max_lt_iff]
  exact ⟨by omega, lt_of_le_of_lt (min_le_left _ _) (by omega)⟩

theorem cell_index_bounds {cols rows nx ny : Int} (h1 : 0 ≤ nx) (h2 : nx < cols) (h3 : 0 ≤ ny)
    (h4 : ny < rows) : 0 ≤ ny * cols + nx ∧ ny * cols + nx < cols * rows := by
  have hc : 0 ≤ cols := by omega
  have hm : 0 ≤ ny * cols := mul_nonneg h3 hc
  constructor
  · omega
  · nlinarith

theorem cell_index_inj {cols nx ny mx my : Int} (h1 : 0 ≤ nx) (h2 : nx < cols)
    (h3 : 0 ≤ mx) (h4 : mx < cols) (e : ny * cols + nx = my * cols + mx) :
    nx = mx ∧ ny = my := by
  have hy : ny = my := by
    rcases lt_trichotomy ny my with h | h | h
    · exfalso; nlinarith
    · exact h
    · exfalso; nlinarith
  subst hy
  exact ⟨by linarith, rfl⟩

theorem rebuild_params (g : FastGrid K) (ps : List (Particle K)) :
    (rebuild g ps).cellSize = g.cellSize ∧ (rebuild g ps).cols = g.cols ∧
    (rebuild g ps).rows = g.rows ∧ (rebuild g ps).head.length = g.head.length ∧
    (rebuild g ps).next.length = g.next.length := by
  simpa [rebuild, FastGrid.clear] using insertLoop_params g.clear ps ps.length

theorem bucket_nodup (g : FastGrid K) (ps : List (Particle K)) (k c : Nat) :
    (bucket g ps k c).Nodup := by
  simp only [bucket, List.nodup_reverse]
  exact (List.nodup_range k).filter _

theorem mem_bucket (g : FastGrid K) (ps : List (Particle K)) (c i : Nat) :
    i ∈ bucket g ps ps.length c ↔ ∃ p, ps[i]? = some p ∧ (g.cellIdx p.pos).toNat = c := by
  simp only [bucket, List.mem_reverse, List.mem_filter, List.mem_range, decide_eq_true_eq]
  constructor
  · exact fun h => h.2
  · rintro ⟨p, hp, hc⟩
    refine ⟨?_, p, hp, hc⟩
    by_contra hlt
    rw [List.getElem?_eq_none (not_lt.mp hlt)] at hp
    exact Option.noConfusion hp

/-- The walk of a bucket on the rebuilt grid. -/
theorem walk_rebuild (g : FastGrid K) (ps : List (Particle K))
    (hn : ps.length ≤ g.next.length) (c : Nat) (hc : c < g.head.length) (fuel : Nat)
    (hf : ps.length ≤ fuel) :
    walk (rebuild g ps).next fuel ((rebuild g ps).head.getD c (-1))
      = some ((bucket g ps ps.length c).map Int.ofNat) := by
  apply chain_walk fuel (insertLoop_chain g ps hn ps.length le_rfl c hc)
  have : (bucket g ps ps.length c).length ≤ (List.range ps.length).length := by
    simp only [bucket, List.length_reverse]
    exact List.length_filter_le _ _
  simp only [List.length_range] at this
  omega

/-- C7 as amended, grid configuration: for `w > 0`, `h > 0`, `c > 0`,
`init(w, h, c)` sets `cols = floor(w / c) + 2` and `rows = floor(h / c) + 2`
(the float is truncated, not rounded up) and leaves `head` with exactly
`cols * rows` entries, all `-1`. -/
theorem init_cols_rows_floor (g : FastGrid K) (w h : Int) (c : K) (hw : 0 < w) (hh : 0 < h)
    (hc : 0 < c) :
    (g.init w h c).cols = ⌊(w : K) / c⌋ + 2 ∧
    (g.init w h c).rows = ⌊(h : K) / c⌋ + 2 ∧
    (g.init w h c).head = List.replicate ((g.init w h c).cols * (g.init w h c).rows).toNat (-1) ∧
    ((g.init w h c).head.length : Int) = (g.init w h c).cols * (g.init w h c).rows := by
  have hwK : (0 : K) ≤ (w : K) / c := div_nonneg (by exact_mod_cast hw.le) hc.le
  have hhK : (0 : K) ≤ (h : K) / c := div_nonneg (by exact_mod_cast hh.le) hc.le
  have e1 : truncInt ((w : K) / c + 2) = ⌊(w : K) / c⌋ + 2 := by
    rw [truncInt_of_nonneg (by linarith)]
    exact Int.floor_add_ofNat _ 2
  have e2 : truncInt ((h : K) / c + 2) = ⌊(h : K) / c⌋ + 2 := by
    rw [truncInt_of_nonneg (by linarith)]
    exact Int.floor_add_ofNat _ 2
  have p1 : 0 ≤ ⌊(w : K) / c⌋ := Int.floor_nonneg.mpr hwK
  have p2 : 0 ≤ ⌊(h : K) / c⌋ := Int.floor_nonneg.mpr hhK
  refine ⟨e1, e2, rfl, ?_⟩
  simp only [FastGrid.init, List.length_replicate, e1, e2]
  exact Int.toNat_of_nonneg (by positivity)

/-- C1, grid bucket invariant: on a grid with `cols >= 1`, `rows >= 1`, `head` of
length `cols * rows` and `next` of the length of the particle list, for any
cell size, after `clear()` and the insertion of
all particles, for every cell `c` the walk `head[c], next[head[c]], ...` reaches
`-1` (with any fuel of at least the particle count) and returns a list without
repetition that holds exactly the indices `i` whose position maps to `c` under
the spec's mapping (floor, then clamp). -/
theorem grid_bucket_invariant (g : FastGrid K) (ps : List (Particle K))
    (hcols : 1 ≤ g.cols) (hrows : 1 ≤ g.rows) (hhead : (g.head.length : Int) = g.cols * g.rows)
    (hnext : g.next.length = ps.length) (c : Int) (hc0 : 0 ≤ c) (hc1 : c < g.cols * g.rows) :
    ∃ l : List Nat,
      (∀ fuel, ps.length ≤ fuel →
        walk (rebuild g ps).next fuel ((rebuild g ps).head.getD c.toNat (-1))
          = some (l.map Int.ofNat)) ∧
      l.Nodup ∧
      ∀ i : Nat, i ∈ l ↔ ∃ p, ps[i]? = some p ∧ specCell g p.pos = c := by
  have hc : c.toNat < g.head.length := by omega
  refine ⟨bucket g ps ps.length c.toNat, ?_, bucket_nodup g ps _ c.toNat, ?_⟩
  · intro fuel hf
    exact walk_rebuild g ps (by omega) c.toNat hc fuel hf
  · intro i
    rw [mem_bucket]
    constructor
    · rintro ⟨p, hp, hcell⟩
      refine ⟨p, hp, ?_⟩
      rw [← cellIdx_eq_specCell g]
      have := cell_index_bounds (cellX_range g hcols p.pos.x).1 (cellX_range g hcols p.pos.x).2
        (cellY_range g hrows p.pos.y).1 (cellY_range g hrows p.pos.y).2
      have h3 : g.cellIdx p.pos = g.cellY p.pos.y * g.cols + g.cellX p.pos.x := rfl
      omega
    · rintro ⟨p, hp, hcell⟩
      refine ⟨p, hp, ?_⟩
      rw [cellIdx_eq_specCell g, hcell]

/-- The stored column of an abscissa within one cell size of the root's lies in the
three columns scanned, as long as the root's own column is within one cell of the grid. -/
theorem near_clamp (c : K) (hc : 0 < c) (m : Int) (xi xj : K) (hd : |xi - xj| ≤ c)
    (hlo : -1 ≤ truncInt (xi / c)) (hhi : truncInt (xi / c) ≤ m + 1) :
    truncInt (xi / c) - 1 ≤ max 0 (min m (truncInt (xj / c))) ∧
    max 0 (min m (truncInt (xj / c))) ≤ truncInt (xi / c) + 1 := by
  rw [clamp_trunc_eq_floor]
  have hab : |xi / c - xj / c| ≤ 1 := by
    rw [← sub_div, abs_div, abs_of_pos hc]
    exact (div_le_one hc).mpr hd
  obtain ⟨h1, h2⟩ := abs_le.mp hab
  have fb_le : ⌊xj / c⌋ ≤ ⌊xi / c⌋ + 1 := by
    have : ⌊xj / c⌋ ≤ ⌊xi / c + 1⌋ := Int.floor_le_floor (by linarith)
    rwa [Int.floor_add_one] at this
  have fb_ge : ⌊xi / c⌋ - 1 ≤ ⌊xj / c⌋ := by
    have : ⌊xi / c - 1⌋ ≤ ⌊xj / c⌋ := Int.floor_le_floor (by linarith)
    rwa [Int.floor_sub_one] at this
  rcases le_or_lt 0 (xi / c) with h | h
  · rw [truncInt_of_nonneg h] at hlo hhi ⊢
    have : 0 ≤ ⌊xi / c⌋ := Int.floor_nonneg.mpr h
    omega
  · rw [truncInt_of_neg h] at hlo hhi ⊢
    have hfa : ⌊xi / c⌋ ≤ -1 := by
      have : ⌊xi / c⌋ < 0 := Int.floor_lt.mpr (by exact_mod_cast h)
      omega
    have hca : ⌈xi / c⌉ ≤ 0 := Int.ceil_le.mpr (by exact_mod_cast h.le)
    have hcb : ⌈xi / c⌉ ≤ -1 → ⌊xj / c⌋ ≤ 0 := by
      intro hle
      have ha : xi / c ≤ -1 := by
        have := Int.ceil_le.mp hle
        exact_mod_cast this
      have hb : xj / c ≤ 0 := by linarith
      have : ⌊xj / c⌋ ≤ ⌊(0 : K)⌋ := Int.floor_le_floor hb
      simpa using this
    omega

theorem scanCell_rebuild (g : FastGrid K) (ps : List (Particle K))
    (hhead : (g.head.length : Int) = g.cols * g.rows) (hnext : ps.length ≤ g.next.length)
    (fuel : Nat) (hf : ps.length ≤ fuel) (nx ny : Int) :
    scanCell (rebuild g ps) fuel nx ny = some (cellList g ps nx ny) := by
  obtain ⟨-, e2, e3, -, -⟩ := rebuild_params g ps
  unfold scanCell cellList
  rw [e2, e3]
  split_ifs with hv
  · rfl
  · push_neg at hv
    obtain ⟨b1, b2⟩ := cell_index_bounds hv.1 hv.2.1 hv.2.2.1 hv.2.2.2
    exact walk_rebuild g ps hnext _ (by omega) fuel hf

/-- What the scan meets in a cell: the particles that `insert` put there. -/
theorem mem_cellList (g : FastGrid K) (ps : List (Particle K)) (hcols : 1 ≤ g.cols)
    (hrows : 1 ≤ g.rows) (nx ny : Int) (j : Int) :
    j ∈ cellList g ps nx ny ↔
      ∃ (i : Nat) (p : Particle K), j = (i : Int) ∧ ps[i]? = some p ∧
        g.cellX p.pos.x = nx ∧ g.cellY p.pos.y = ny := by
  unfold cellList
  split_ifs with hv
  · simp only [List.not_mem_nil, false_iff]
    rintro ⟨i, p, -, -, rfl, rfl⟩
    have := cellX_range g hcols p.pos.x
    have := cellY_range g hrows p.pos.y
    omega
  · push_neg at hv
    simp only [List.mem_map, mem_bucket]
    constructor
    · rintro ⟨i, ⟨p, hp, hcell⟩, rfl⟩
      refine ⟨i, p, rfl, hp, ?_⟩
      obtain ⟨b1, b2⟩ := cell_index_bounds hv.1 hv.2.1 hv.2.2.1 hv.2.2.2
      obtain ⟨c1, c2⟩ := cellX_range g hcols p.pos.x
      obtain ⟨d1, d2⟩ := cellY_range g hrows p.pos.y
      obtain ⟨f1, f2⟩ := cell_index_bounds c1 c2 d1 d2
      have : g.cellY p.pos.y * g.cols + g.cellX p.pos.x = ny * g.cols + nx := by
        have h3 : g.cellIdx p.pos = g.cellY p.pos.y * g.cols + g.cellX p.pos.x := rfl
        rw [h3] at hcell
        omega
      obtain ⟨r1, r2⟩ := cell_index_inj c1 c2 hv.1 hv.2.1 this
      exact ⟨r1, r2⟩
    · rintro ⟨i, p, rfl, hp, rfl, rfl⟩
      exact ⟨i, ⟨p, hp, rfl⟩, rfl⟩

/-- On the rebuilt grid the scan ends and returns the block list of its root. -/
theorem scan_rebuild (g : FastGrid K) (ps : List (Particle K))
    (hhead : (g.head.length : Int) = g.cols * g.rows) (hnext : ps.length ≤ g.next.length)
    (fuel : Nat) (hf : ps.length ≤ fuel) (p : Vec2 K) :
    scan (rebuild g ps) fuel p
      = some (blockList g ps (truncInt (p.x / g.cellSize)) (truncInt (p.y / g.cellSize))) := by
  obtain ⟨e1, -, -, -, -⟩ := rebuild_params g ps
  simp only [scan, scanColumn, scanCell_rebuild g ps hhead hnext fuel hf, e1, blockList,
    Option.pure_def, Option.bind_eq_bind, Option.some_bind]

theorem mem_blockList (g : FastGrid K) (ps : List (Particle K)) (hcols : 1 ≤ g.cols)
    (hrows : 1 ≤ g.rows) (gx gy : Int) (j : Int) :
    j ∈ blockList g ps gx gy ↔
      ∃ (i : Nat) (p : Particle K), j = (i : Int) ∧ ps[i]? = some p ∧
        (gx - 1 ≤ g.cellX p.pos.x ∧ g.cellX p.pos.x ≤ gx + 1) ∧
        (gy - 1 ≤ g.cellY p.pos.y ∧ g.cellY p.pos.y ≤ gy + 1) := by
  simp only [blockList, List.mem_append, mem_cellList g ps hcols hrows]
  constructor
  · rintro ((((h | h) | h) | ((h | h) | h)) | ((h | h) | h)) <;>
      obtain ⟨i, p, e, hp, hx, hy⟩ := h <;>
      exact ⟨i, p, e, hp, by omega, by omega⟩
  · rintro ⟨i, p, e, hp, hx, hy⟩
    have hx' : g.cellX p.pos.x = gx - 1 ∨ g.cellX p.pos.x = gx ∨ g.cellX p.pos.x = gx + 1 := by
      omega
    have hy' : g.cellY p.pos.y = gy - 1 ∨ g.cellY p.pos.y = gy ∨ g.cellY p.pos.y = gy + 1 := by
      omega
    rcases hx' with hx' | hx' | hx' <;> rcases hy' with hy' | hy' | hy'
    · exact Or.inl (Or.inl (Or.inl (Or.inl ⟨i, p, e, hp, hx', hy'⟩)))
    · exact Or.inl (Or.inl (Or.inl (Or.inr ⟨i, p, e, hp, hx', hy'⟩)))
    · exact Or.inl (Or.inl (Or.inr ⟨i, p, e, hp, hx', hy'⟩))
    · exact Or.inl (Or.inr (Or.inl (Or.inl ⟨i, p, e, hp, hx', hy'⟩)))
    · exact Or.inl (Or.inr (Or.inl (Or.inr ⟨i, p, e, hp, hx', hy'⟩)))
    · exact Or.inl (Or.inr (Or.inr ⟨i, p, e, hp, hx', hy'⟩))
    · exact Or.inr (Or.inl (Or.inl ⟨i, p, e, hp, hx', hy'⟩))
    · exact Or.inr (Or.inl (Or.inr ⟨i, p, e, hp, hx', hy'⟩))
    · exact Or.inr (Or.inr ⟨i, p, e, hp, hx', hy'⟩)

theorem visited_rebuild (g : FastGrid K) (ps : List (Particle K))
    (hhead : (g.head.length : Int) = g.cols * g.rows) (hnext : ps.length ≤ g.next.length)
    (fuel : Nat) (hf : ps.length ≤ fuel) (i : Nat) (p : Vec2 K) :
    visited (rebuild g ps) fuel i p
      = some ((blockList g ps (truncInt (p.x / g.cellSize)) (truncInt (p.y / g.cellSize))).filter
          (fun j => decide ((i : Int) ≠ j))) := by
  rw [visited, scan_rebuild g ps hhead hnext fuel hf]
  rfl

/-- Core of the neighbourhood guarantee, for a root position `q`. -/
theorem mem_blockList_of_near (g : FastGrid K) (ps : List (Particle K)) (hsize : 0 < g.cellSize)
    (hcols : 1 ≤ g.cols) (hrows : 1 ≤ g.rows) (q : Vec2 K) (j : Nat) (pj : Particle K)
    (hj : ps[j]? = some pj) (hdist : (q.sub pj.pos).lenSq ≤ g.cellSize * g.cellSize)
    (hgx : -1 ≤ truncInt (q.x / g.cellSize) ∧ truncInt (q.x / g.cellSize) ≤ g.cols)
    (hgy : -1 ≤ truncInt (q.y / g.cellSize) ∧ truncInt (q.y / g.cellSize) ≤ g.rows) :
    (j : Int) ∈ blockList g ps (truncInt (q.x / g.cellSize)) (truncInt (q.y / g.cellSize)) := by
  rw [mem_blockList g ps hcols hrows]
  obtain ⟨dx, dy⟩ := abs_x_le_of_lenSq_le q pj.pos g.cellSize hsize.le hdist
  refine ⟨j, pj, rfl, hj, ?_, ?_⟩
  · exact near_clamp g.cellSize hsize (g.cols - 1) q.x pj.pos.x dx hgx.1 (by omega)
  · exact near_clamp g.cellSize hsize (g.rows - 1) q.y pj.pos.y dy hgy.1 (by omega)

/-- C2 as amended, no false negatives next to the grid: on the freshly rebuilt
grid, if the unclamped cell coordinates of particle `i` lie in `[-1, cols] x
[-1, rows]` (inside the grid or at most one cell outside it), the 3x3 scan
rooted at `i` visits every particle `j != i` whose distance to `i` is at most
`cellSize`. -/
theorem scan_visits_neighbours_near_grid (g : FastGrid K) (ps : List (Particle K))
    (hsize : 0 < g.cellSize) (hcols : 1 ≤ g.cols) (hrows : 1 ≤ g.rows) (hhead : (g.head.length : Int) = g.cols * g.rows)
    (hnext : g.next.length = ps.length) (i j : Nat) (hi : i < ps.length) (hj : j < ps.length)
    (hij : i ≠ j)
    (hdist : (ps[i].pos.sub ps[j].pos).lenSq ≤ g.cellSize * g.cellSize)
    (hgx : -1 ≤ truncInt (ps[i].pos.x / g.cellSize) ∧
      truncInt (ps[i].pos.x / g.cellSize) ≤ g.cols)
    (hgy : -1 ≤ truncInt (ps[i].pos.y / g.cellSize) ∧
      truncInt (ps[i].pos.y / g.cellSize) ≤ g.rows) :
    ∃ l : List Int,
      (∀ fuel, ps.length ≤ fuel → visited (rebuild g ps) fuel i ps[i].pos = some l) ∧
      (j : Int) ∈ l := by
  refine ⟨_, fun fuel hf => visited_rebuild g ps hhead (by omega) fuel hf i ps[i].pos, ?_⟩
  rw [List.mem_filter]
  refine ⟨mem_blockList_of_near g ps hsize hcols hrows ps[i].pos j ps[j]
    (List.getElem?_eq_getElem hj) hdist hgx hgy, ?_⟩
  simp only [ne_eq, Nat.cast_inj, decide_not, Bool.not_eq_eq_eq_not, Bool.not_true,
    decide_eq_false_iff_not]
  exact hij

/-- A scan rooted left of column `-1` meets no cell of the grid. -/
theorem scan_left_of_grid (g : FastGrid K) (fuel : Nat) (p : Vec2 K)
    (h : truncInt (p.x / g.cellSize) + 1 < 0) : scan g fuel p = some [] := by
  have c1 : ∀ ny, scanCell g fuel (truncInt (p.x / g.cellSize) - 1) ny = some [] := by
    intro ny; unfold scanCell; rw [if_pos (Or.inl (by omega))]
  have c2 : ∀ ny, scanCell g fuel (truncInt (p.x / g.cellSize)) ny = some [] := by
    intro ny; unfold scanCell; rw [if_pos (Or.inl (by omega))]
  have c3 : ∀ ny, scanCell g fuel (truncInt (p.x / g.cellSize) + 1) ny = some [] := by
    intro ny; unfold scanCell; rw [if_pos (Or.inl h)]
  simp only [scan, scanColumn, c1, c2, c3, Option.pure_def, Option.bind_eq_bind,
    Option.some_bind, List.append_nil]

theorem init_head_length (g0 : FastGrid K) (w h : Int) (c : K)
    (hcols : 0 ≤ (g0.init w h c).cols) (hrows : 0 ≤ (g0.init w h c).rows) :
    ((g0.init w h c).head.length : Int) = (g0.init w h c).cols * (g0.init w h c).rows := by
  simp only [FastGrid.init, List.length_replicate] at hcols hrows ⊢
  exact Int.toNat_of_nonneg (mul_nonneg hcols hrows)

theorem trunc_in_grid (c : K) (hc : 0 < c) (m : Int) (x : K) (h0 : 0 ≤ x) (h1 : x < (m : K) * c) :
    0 ≤ truncInt (x / c) ∧ truncInt (x / c) < m ∧
      max 0 (min (m - 1) (truncInt (x / c))) = truncInt (x / c) := by
  have hq : 0 ≤ x / c := div_nonneg h0 hc.le
  rw [truncInt_of_nonneg hq]
  have f0 : 0 ≤ ⌊x / c⌋ := Int.floor_nonneg.mpr hq
  have f1 : ⌊x / c⌋ < m := Int.floor_lt.mpr ((div_lt_iff₀ hc).mpr h1)
  refine ⟨f0, f1, ?_⟩
  omega

/-- C10, exhaustive contact detection inside the grid: let `g` be any grid with
the geometry set by `init(w, h, 3 r)` (cell size `3 r`, the same `cols`, `rows`
and number of heads), whatever its `head` and `next` hold from earlier
sub-steps, and let the particles have radius `r` and positions with
`0 <= x < cols * cellSize`, `0 <= y < rows * cellSize`.  Then every pair
`i != j` closer than the contact distance `radius[i] + radius[j] = 2 r` is
stored in the same or an adjacent cell, and `j` is visited by the 3x3 scan
rooted at `i` on the grid rebuilt by `clear()` and the insertion loop. -/
theorem contact_detection_inside_grid (g g0 : FastGrid K) (w h : Int) (r : K) (hr : 0 < r)
    (ps : List (Particle K))
    (hsize : g.cellSize = (g0.init w h (3 * r)).cellSize)
    (hcols : g.cols = (g0.init w h (3 * r)).cols)
    (hrows : g.rows = (g0.init w h (3 * r)).rows)
    (hhead : g.head.length = (g0.init w h (3 * r)).head.length)
    (hnext : g.next.length = ps.length)
    (hrad : ∀ p ∈ ps, p.radius = r)
    (hin : ∀ p ∈ ps, 0 ≤ p.pos.x ∧ p.pos.x < (g.cols : K) * g.cellSize ∧
        0 ≤ p.pos.y ∧ p.pos.y < (g.rows : K) * g.cellSize)
    (i j : Nat) (hi : i < ps.length) (hj : j < ps.length) (hij : i ≠ j)
    (hclose : (ps[i].pos.sub ps[j].pos).lenSq
        < (ps[i].radius + ps[j].radius) * (ps[i].radius + ps[j].radius)) :
    |g.cellX ps[i].pos.x - g.cellX ps[j].pos.x| ≤ 1 ∧
    |g.cellY ps[i].pos.y - g.cellY ps[j].pos.y| ≤ 1 ∧
    ∃ l : List Int,
      (∀ fuel, ps.length ≤ fuel → visited (rebuild g ps) fuel i ps[i].pos = some l) ∧
      (j : Int) ∈ l := by
  have hc : (0 : K) < 3 * r := by linarith
  have hsz : g.cellSize = 3 * r := hsize
  obtain ⟨xi0, xi1, yi0, yi1⟩ := hin ps[i] (List.getElem_mem hi)
  rw [hsz] at xi1 yi1
  obtain ⟨txi0, txi1, txi2⟩ := trunc_in_grid (3 * r) hc _ _ xi0 xi1
  obtain ⟨tyi0, tyi1, tyi2⟩ := trunc_in_grid (3 * r) hc _ _ yi0 yi1
  have hc1 : 1 ≤ g.cols := by omega
  have hr1 : 1 ≤ g.rows := by omega
  have hlen : (g.head.length : Int) = g.cols * g.rows := by
    rw [hhead, hcols, hrows]
    exact init_head_length g0 w h (3 * r) (by omega) (by omega)
  have hdist : (ps[i].pos.sub ps[j].pos).lenSq ≤ (3 * r) * (3 * r) := by
    rw [hrad _ (List.getElem_mem hi), hrad _ (List.getElem_mem hj)] at hclose
    nlinarith
  obtain ⟨dx, dy⟩ := abs_x_le_of_lenSq_le ps[i].pos ps[j].pos (3 * r) hc.le hdist
  have nx := near_clamp (3 * r) hc (g.cols - 1) ps[i].pos.x ps[j].pos.x dx
    (by omega) (by omega)
  have ny := near_clamp (3 * r) hc (g.rows - 1) ps[i].pos.y ps[j].pos.y dy
    (by omega) (by omega)
  refine ⟨?_, ?_, ?_⟩
  · simp only [FastGrid.cellX, hsz]
    rw [txi2, abs_le]
    constructor <;> omega
  · simp only [FastGrid.cellY, hsz]
    rw [tyi2, abs_le]
    constructor <;> omega
  · refine ⟨_, fun fuel hf => visited_rebuild g ps hlen (by omega) fuel hf i ps[i].pos, ?_⟩
    rw [List.mem_filter]
    refine ⟨mem_blockList_of_near g ps (by rw [hsz]; exact hc) hc1 hr1 ps[i].pos j ps[j]
      (List.getElem?_eq_getElem hj) (by rw [hsz]; exact hdist)
      (by rw [hsz]; omega) (by rw [hsz]; omega), ?_⟩
    simp only [ne_eq, Nat.cast_inj, decide_not, Bool.not_eq_eq_eq_not, Bool.not_true,
      decide_eq_false_iff_not]
    exact hij

/-! ## Theorems: the overlap solver pass -/

end Grid

/-! ## The theorems at concrete inputs -/

theorem truncInt_eq_of_bounds {K : Type} [LinearOrderedField K] [FloorRing K] {q : K} {z : Int}
    (h0 : 0 ≤ q) (h1 : (z : K) ≤ q) (h2 : q < (z : K) + 1) : truncInt q = z := by
  rw [truncInt_of_nonneg h0, Int.floor_eq_iff]
  exact ⟨h1, h2⟩

theorem mainGrid_cols : mainGrid.cols = 68 ∧ mainGrid.rows = 68 := by
  have e : truncInt (((500 : Int) : ℚ) / (15 / 2) + 2) = 68 :=
    truncInt_eq_of_bounds (by norm_num) (by norm_num) (by norm_num)
  exact ⟨e, e⟩

theorem rat_sqrt_nine : Rat.sqrt 9 = 3 := by
  have : (9 : ℚ) = 3 * 3 := by norm_num
  rw [this, Rat.sqrt_eq]; norm_num

theorem trunc_near_of_inside {K : Type} [LinearOrderedField K] [FloorRing K] (c : K)
    (hc : 0 < c) (m : Int) (x : K) (h0 : 0 ≤ x) (h1 : x < (m : K) * c) :
    -1 ≤ truncInt (x / c) ∧ truncInt (x / c) ≤ m := by
  obtain ⟨a, b, -⟩ := trunc_in_grid c hc m x h0 h1
  omega

theorem mainGrid_head_length : (mainGrid.head.length : Int) = mainGrid.cols * mainGrid.rows :=
  init_head_length blankGrid 500 500 (15 / 2)
    (by show 0 ≤ mainGrid.cols; rw [mainGrid_cols.1]; decide)
    (by show 0 ≤ mainGrid.rows; rw [mainGrid_cols.2]; decide)

/-- The bucket invariant on a grid of two by two cells with two particles. -/
theorem grid_bucket_invariant_witness :
    (1 ≤ smallGrid.cols ∧ 1 ≤ smallGrid.rows) ∧
    ∃ l : List Nat,
      (∀ fuel, [restingAt 1 1 1, restingAt 7 1 1].length ≤ fuel →
        walk (rebuild smallGrid [restingAt 1 1 1, restingAt 7 1 1]).next fuel
          ((rebuild smallGrid [restingAt 1 1 1, restingAt 7 1 1]).head.getD (0 : Int).toNat (-1))
            = some (l.map Int.ofNat)) ∧
      l.Nodup ∧
      ∀ i : Nat, i ∈ l ↔
        ∃ p, [restingAt 1 1 1, restingAt 7 1 1][i]? = some p ∧ specCell smallGrid p.pos = 0 :=
  ⟨⟨by decide, by decide⟩,
    grid_bucket_invariant smallGrid [restingAt 1 1 1, restingAt 7 1 1] (by decide) (by decide)
      (by decide) rfl 0 (by decide) (by decide)⟩

/-- Counterexample to C2 as stated: on the start-up grid a particle at
`x = -20` (a spawn at the left window edge) has a neighbour at distance 1, and
the scan rooted at it visits nothing. -/
theorem scan_misses_neighbour_outside_grid :
    ∃ (ps : List (Particle ℚ)) (pi pj : Particle ℚ),
      ps = [restingAt (-20) 100 (5 / 2), restingAt (-19) 100 (5 / 2)] ∧
      ps[0]? = some pi ∧ ps[1]? = some pj ∧
      (pi.pos.sub pj.pos).lenSq ≤ mainGrid.cellSize * mainGrid.cellSize ∧
      (∀ fuel, visited (rebuild mainGrid ps) fuel 0 pi.pos = some []) ∧
      ∀ fuel l, visited (rebuild mainGrid ps) fuel 0 pi.pos = some l → ((1 : Nat) : Int) ∉ l := by
  have hv : ∀ fuel, visited (rebuild mainGrid
      [restingAt (-20) 100 (5 / 2), restingAt (-19) 100 (5 / 2)]) fuel 0
      (restingAt (-20) 100 (5 / 2)).pos = some [] := by
    intro fuel
    rw [visited, scan_left_of_grid]
    · rfl
    · rw [(rebuild_params _ _).1]
      show truncInt ((-20 : ℚ) / (15 / 2)) + 1 < 0
      have e : truncInt ((-20 : ℚ) / (15 / 2)) = -2 := by
        rw [truncInt_of_neg (by norm_num), Int.ceil_eq_iff]
        norm_num
      rw [e]
      decide
  refine ⟨_, _, _, rfl, rfl, rfl, ?_, hv, ?_⟩
  · show ((restingAt (-20) 100 (5 / 2)).pos.sub (restingAt (-19) 100 (5 / 2)).pos).lenSq
      ≤ (15 / 2 : ℚ) * (15 / 2)
    simp only [restingAt, Vec2.sub, Vec2.lenSq]; norm_num
  · intro fuel l hl
    have hl2 : some ([] : List Int) = some l := (hv fuel).symm.trans hl
    cases hl2
    exact List.not_mem_nil _

/-- The amended C2 on the small grid: particle 1 at distance 3 is visited by
the scan rooted at particle 0. -/
theorem scan_visits_neighbours_near_grid_witness :
    ∃ l : List Int,
      (∀ fuel, [restingAt 1 1 1, restingAt 4 1 1].length ≤ fuel →
        visited (rebuild smallGrid [restingAt 1 1 1, restingAt 4 1 1]) fuel 0
          ([restingAt 1 1 1, restingAt 4 1 1][0]).pos = some l) ∧
      ((1 : Nat) : Int) ∈ l := by
  have hc : (0 : ℚ) < 5 := by norm_num
  exact scan_visits_neighbours_near_grid smallGrid [restingAt 1 1 1, restingAt 4 1 1]
    hc (by decide) (by decide) (by decide) rfl 0 1 (by decide) (by decide) (by decide)
    (by show ((restingAt 1 1 1).pos.sub (restingAt 4 1 1).pos).lenSq ≤ (5 : ℚ) * 5
        simp only [restingAt, Vec2.sub, Vec2.lenSq]; norm_num)
    (trunc_near_of_inside 5 hc 2 1 (by norm_num) (by norm_num))
    (trunc_near_of_inside 5 hc 2 1 (by norm_num) (by norm_num))

/-- The pair correction at the spec's scenario with `h = 0.002`: particle `i`
at `(3, 0)` moves by `200 h + 0.8 = 1.2` along the axis. -/
theorem pair_correction_effect_witness :
    overlapping (restingAt 3 0 (5 / 2)) (restingAt 0 0 (5 / 2)) ∧
    (pairStep Rat.sqrt mainSubDt (restingAt 3 0 (5 / 2)) (restingAt 0 0 (5 / 2))).1.pos
      = ⟨3 + 6 / 5, 0⟩ := by
  have hov : overlapping (restingAt 3 0 (5 / 2)) (restingAt 0 0 (5 / 2)) := by
    simp only [overlapping, restingAt, Vec2.sub, Vec2.lenSq]; norm_num
  have hl : ((restingAt 3 0 (5 / 2)).pos.sub (restingAt 0 0 (5 / 2)).pos).lenSq = 9 := by
    simp only [restingAt, Vec2.sub, Vec2.lenSq]; norm_num
  have h := (pair_correction_effect Rat.sqrt mainSubDt (restingAt 3 0 (5 / 2))
    (restingAt 0 0 (5 / 2)) 3 (by rw [hl]; exact rat_sqrt_nine) (by norm_num)
    (by rw [hl]; norm_num) hov).1
  refine ⟨hov, ?_⟩
  rw [h]
  simp only [restingAt, Vec2.add, Vec2.sub, Vec2.scale, Vec2.divS, pressureConstant, mainSubDt]
  norm_num

/-- Counterexample to C6 as stated: in the box of the 500 by 500 window
(`boxBottom = 450`) the particle of radius 2.5 at `(250, 460)` is not moved by
the containment pass. -/
theorem boundary_clamp_far_below_unchanged :
    (mkBox (500 : ℚ) 500).boxBottom + 10 = 460 ∧
    ((mkBox (500 : ℚ) 500).boxLeft + (mkBox (500 : ℚ) 500).boxRight) / 2 = 250 ∧
    (contain (mkBox (500 : ℚ) 500) (restingAt 250 460 (5 / 2))).pos.y = 460 ∧
    (contain (mkBox (500 : ℚ) 500) (restingAt 250 460 (5 / 2))).pos.y
      ≠ (mkBox (500 : ℚ) 500).boxBottom - 5 / 2 := by
  norm_num [mkBox, contain, restingAt]

/-- The amended C6 in the box of the 500 by 500 window: the particle at
`(250, 451)` ends at `y = 447.5`. -/
theorem boundary_clamp_within_radius_witness :
    (contain (mkBox (500 : ℚ) 500) (restingAt 250 451 (5 / 2))).pos.y
      = (mkBox (500 : ℚ) 500).boxBottom - 5 / 2 :=
  (boundary_clamp_within_radius (mkBox (500 : ℚ) 500) (restingAt 250 451 (5 / 2))
    (by norm_num [mkBox]) (by norm_num [mkBox]) rfl (by norm_num [mkBox, restingAt])).1
    (by norm_num [mkBox, restingAt]) (by norm_num [mkBox, restingAt])

/-- Counterexample to C7 as stated: `init(500, 500, 7.5)` gives `cols = 68`,
while `ceil(500 / 7.5) + 2 = 69`. -/
theorem init_cols_not_ceil :
    (blankGrid.init 500 500 (15 / 2)).cols = 68 ∧
    ⌈((500 : Int) : ℚ) / (15 / 2)⌉ + 2 = 69 ∧
    (blankGrid.init 500 500 (15 / 2)).cols ≠ ⌈((500 : Int) : ℚ) / (15 / 2)⌉ + 2 := by
  have hceil : ⌈((500 : Int) : ℚ) / (15 / 2)⌉ = 67 := by
    rw [Int.ceil_eq_iff]; norm_num
  have hcols : (blankGrid.init 500 500 (15 / 2)).cols = 68 := mainGrid_cols.1
  refine ⟨hcols, by rw [hceil]; rfl, ?_⟩
  rw [hcols, hceil]
  decide

/-- The amended C7 at `init(500, 500, 7.5)`. -/
theorem init_cols_rows_floor_witness :
    (blankGrid.init 500 500 (15 / 2)).cols = ⌊((500 : Int) : ℚ) / (15 / 2)⌋ + 2 ∧
    ((blankGrid.init 500 500 (15 / 2)).head.length : Int)
      = (blankGrid.init 500 500 (15 / 2)).cols * (blankGrid.init 500 500 (15 / 2)).rows :=
  ⟨(init_cols_rows_floor blankGrid 500 500 (15 / 2) (by decide) (by decide) (by norm_num)).1,
   (init_cols_rows_floor blankGrid 500 500 (15 / 2) (by decide) (by decide) (by norm_num)).2.2.2⟩

/-- The damping theorem for a particle moving by `(1, 1)` per sub-step. -/
theorem damped_speed_nonincreasing_witness :
    ((integrate mainSubDt (⟨⟨1, 1⟩, ⟨0, 0⟩, ⟨0, 0⟩, 1⟩ : Particle ℚ)).pos.sub
      (integrate mainSubDt (⟨⟨1, 1⟩, ⟨0, 0⟩, ⟨0, 0⟩, 1⟩ : Particle ℚ)).oldPos).lenSq
      ≤ ((⟨1, 1⟩ : Vec2 ℚ).sub ⟨0, 0⟩).lenSq :=
  (damped_speed_nonincreasing mainSubDt (⟨⟨1, 1⟩, ⟨0, 0⟩, ⟨0, 0⟩, 1⟩ : Particle ℚ) rfl).2.1

/-- The used grid still holds an index in the head of the cell of `(310, 300)`. -/
theorem usedGrid_stale_head : usedGrid.head.getD 2761 (-1) ≠ -1 := by
  have hlen := mainGrid_head_length
  rw [mainGrid_cols.1, mainGrid_cols.2] at hlen
  have hchain := insertLoop_chain mainGrid
    [restingAt 300 300 (5 / 2), restingAt 310 300 (5 / 2)] (le_of_eq rfl) 2 le_rfl 2761
    (by omega)
  have hx : truncInt ((310 : ℚ) / (15 / 2)) = 41 :=
    truncInt_eq_of_bounds (by norm_num) (by norm_num) (by norm_num)
  have hy : truncInt ((300 : ℚ) / (15 / 2)) = 40 :=
    truncInt_eq_of_bounds (by norm_num) (by norm_num) (by norm_num)
  have hcell : (mainGrid.cellIdx (restingAt 310 300 (5 / 2)).pos).toNat = 2761 := by
    have hsz : mainGrid.cellSize = 15 / 2 := rfl
    simp only [FastGrid.cellIdx, FastGrid.cellX, FastGrid.cellY, mainGrid_cols.1,
      mainGrid_cols.2, hsz, restingAt, hx, hy]
    decide
  have hmem : 1 ∈ bucket mainGrid [restingAt 300 300 (5 / 2), restingAt 310 300 (5 / 2)]
      [restingAt 300 300 (5 / 2), restingAt 310 300 (5 / 2)].length 2761 :=
    (mem_bucket mainGrid _ 2761 1).mpr ⟨_, rfl, hcell⟩
  intro hneg
  have hch : Chain (rebuild mainGrid [restingAt 300 300 (5 / 2), restingAt 310 300 (5 / 2)]).next
      (usedGrid.head.getD 2761 (-1))
      (bucket mainGrid [restingAt 300 300 (5 / 2), restingAt 310 300 (5 / 2)]
        [restingAt 300 300 (5 / 2), restingAt 310 300 (5 / 2)].length 2761) := hchain
  rw [hneg] at hch
  cases hb : bucket mainGrid [restingAt 300 300 (5 / 2), restingAt 310 300 (5 / 2)]
      [restingAt 300 300 (5 / 2), restingAt 310 300 (5 / 2)].length 2761 with
  | nil => rw [hb] at hmem; exact absurd hmem (List.not_mem_nil _)
  | cons a t =>
    rw [hb] at hch
    have : (-1 : Int) = (a : Int) := hch.1
    omega

/-- Contact detection at the start-up configuration, on the used grid: the
pair at distance 3 is found. -/
theorem contact_detection_inside_grid_witness :
    usedGrid.head.getD 2761 (-1) ≠ -1 ∧
    ∃ l : List Int,
      (∀ fuel, [restingAt 100 100 (5 / 2), restingAt 103 100 (5 / 2)].length ≤ fuel →
        visited (rebuild usedGrid
          [restingAt 100 100 (5 / 2), restingAt 103 100 (5 / 2)]) fuel 0
          ([restingAt 100 100 (5 / 2), restingAt 103 100 (5 / 2)][0]).pos = some l) ∧
      ((1 : Nat) : Int) ∈ l := by
  have hg : blankGrid.init 500 500 (3 * (5 / 2)) = mainGrid := by
    have : (3 : ℚ) * (5 / 2) = 15 / 2 := by norm_num
    rw [this]; rfl
  obtain ⟨u1, u2, u3, u4, u5⟩ := rebuild_params mainGrid
    [restingAt 300 300 (5 / 2), restingAt 310 300 (5 / 2)]
  have hsz : usedGrid.cellSize = 15 / 2 := u1
  have hcols : usedGrid.cols = 68 := u2.trans mainGrid_cols.1
  have hrows : usedGrid.rows = 68 := u3.trans mainGrid_cols.2
  have hin : ∀ p ∈ [restingAt 100 100 (5 / 2), restingAt 103 100 (5 / 2)],
      0 ≤ p.pos.x ∧ p.pos.x < (usedGrid.cols : ℚ) * usedGrid.cellSize ∧
        0 ≤ p.pos.y ∧ p.pos.y < (usedGrid.rows : ℚ) * usedGrid.cellSize := by
    intro p hp
    rw [hcols, hrows, hsz]
    simp only [List.mem_cons, List.mem_singleton, List.not_mem_nil, or_false] at hp
    rcases hp with rfl | rfl <;> norm_num [restingAt]
  have hrad : ∀ p ∈ [restingAt 100 100 (5 / 2), restingAt 103 100 (5 / 2)],
      p.radius = 5 / 2 := by
    intro p hp
    simp only [List.mem_cons, List.mem_singleton, List.not_mem_nil, or_false] at hp
    rcases hp with rfl | rfl <;> rfl
  exact ⟨usedGrid_stale_head,
    (contact_detection_inside_grid usedGrid blankGrid 500 500 (5 / 2) (by norm_num)
    [restingAt 100 100 (5 / 2), restingAt 103 100 (5 / 2)]
    (by rw [hg]; exact u1) (by rw [hg]; exact u2) (by rw [hg]; exact u3) (by rw [hg]; exact u4)
    u5 hrad hin 0 1 (by decide) (by decide) (by decide)
    (by show ((restingAt 100 100 (5 / 2)).pos.sub (restingAt 103 100 (5 / 2)).pos).lenSq
          < ((restingAt 100 100 (5 / 2)).radius + (restingAt 103 100 (5 / 2)).radius) *
            ((restingAt 100 100 (5 / 2)).radius + (restingAt 103 100 (5 / 2)).radius)
        simp only [restingAt, Vec2.sub, Vec2.lenSq]; norm_num)).2.2⟩

end FluidSim
